import Mathlib

/-!
Verification of the Oh group implementation in groupy/garray/Oh_array.py.

The Python module represents elements of the octahedral symmetry group Oh in an
integer parameterization (index, mirror) and a 3x3 matrix parameterization, with
a canonical 24-element list of rotation matrices generated by a randomized
closure walk (OhArray.get_elements) and converters OhArray.get_int and
OhArray.get_mat between the two parameterizations.

Matrices are nested Python lists of ints; we embed them as `List (List Int)`.
The random choices of the walk are embedded as an explicit list of naturals
(each one selecting an element of the current list), so every possible sequence
of random draws is covered by quantifying over that list.
-/

/-- 3x3 integer matrices in the nested-list representation used by the Python
code (`.tolist()` of a numpy array). -/
abbrev Mat : Type := List (List Int)

/-- Entry i j of a matrix in nested-list form (0 outside the stored shape). -/
def entry (M : Mat) (i j : Nat) : Int := (M.getD i []).getD j 0

/-- Row i of a times column j of b for 3x3 matrices, as computed by np.dot. -/
def rcDot (a b : Mat) (i j : Nat) : Int :=
  entry a i 0 * entry b 0 j + entry a i 1 * entry b 1 j + entry a i 2 * entry b 2 j

/-- Product of two 3x3 matrices in nested-list form (np.dot in get_elements). -/
def matMul (a b : Mat) : Mat :=
  [ [rcDot a b 0 0, rcDot a b 0 1, rcDot a b 0 2],
    [rcDot a b 1 0, rcDot a b 1 1, rcDot a b 1 2],
    [rcDot a b 2 0, rcDot a b 2 1, rcDot a b 2 2] ]

/-- Transpose of a 3x3 matrix in nested-list form. -/
def transposeM (M : Mat) : Mat :=
  [ [entry M 0 0, entry M 1 0, entry M 2 0],
    [entry M 0 1, entry M 1 1, entry M 2 1],
    [entry M 0 2, entry M 1 2, entry M 2 2] ]

/-- Determinant of a 3x3 matrix in nested-list form. -/
def det3 (M : Mat) : Int :=
  entry M 0 0 * (entry M 1 1 * entry M 2 2 - entry M 1 2 * entry M 2 1)
    - entry M 0 1 * (entry M 1 0 * entry M 2 2 - entry M 1 2 * entry M 2 0)
    + entry M 0 2 * (entry M 1 0 * entry M 2 1 - entry M 1 1 * entry M 2 0)

/-- Generator g1 of get_elements: 90 degree rotation over the x axis. -/
def g1 : Mat := [[1, 0, 0], [0, 0, -1], [0, 1, 0]]

/-- Generator g2 of get_elements: 90 degree rotation over the y axis. -/
def g2 : Mat := [[0, 0, 1], [0, 1, 0], [-1, 0, 0]]

/-- The 3x3 identity matrix (the literal used by the free function identity). -/
def id3 : Mat := [[1, 0, 0], [0, 1, 0], [0, 0, 1]]

/-- Lexicographic comparison of lists from a Boolean comparison of entries,
matching Python's comparison of (nested) lists: compare entrywise, the first
strictly smaller entry decides, a strict prefix is smaller. -/
def lexLe (le : α → α → Bool) : List α → List α → Bool
  | [], _ => true
  | _ :: _, [] => false
  | a :: as, b :: bs => le a b && (!le b a || lexLe le as bs)

/-- Python comparison of rows (lists of ints). -/
def leRow (r s : List Int) : Bool := lexLe (fun x y : Int => decide (x ≤ y)) r s

/-- Python comparison of matrices (lists of rows), as used by list.sort(). -/
def leMat (A B : Mat) : Bool := lexLe leRow A B

/-- The order relation on matrices that element_list.sort() sorts by. -/
def MatLE (A B : Mat) : Prop := leMat A B = true

instance : DecidableRel MatLE := fun A B => by unfold MatLE; infer_instance

/-- element_list.sort(): Python sorts the nested lists lexicographically in
place; since the walk's list never holds duplicates, the result is the unique
enumeration of the list's elements that is sorted under the total order MatLE,
here produced by insertion sort. -/
def sortMats (l : List Mat) : List Mat := l.insertionSort MatLE

/-- One iteration of the while loop in OhArray.get_elements, given the random
draw as an index c into the current list (random.choice picks an arbitrary
element; every element is L.getD (c % L.length) for some c). -/
def ohStep (L : List Mat) (cur : Mat) (c : Nat) : List Mat × Mat :=
  let m := L.getD (c % L.length) g1
  let cur2 := matMul cur m
  let L2 := if cur2 ∈ L then L else L ++ [cur2]
  (sortMats L2, cur2)

/-- The while loop of OhArray.get_elements: repeat ohStep while the list is
shorter than 24; cs is the stream of random draws, and none is returned when
the stream runs out before the loop exits. -/
def ohLoop : List Nat → List Mat → Mat → Option (List Mat)
  | [], L, _ => if 24 ≤ L.length then some L else none
  | c :: cs, L, cur =>
    if 24 ≤ L.length then some L
    else ohLoop cs (ohStep L cur c).1 (ohStep L cur c).2

/-- OhArray.get_elements: starting list [g1, g2], running product starts at g1. -/
def get_elements (cs : List Nat) : Option (List Mat) := ohLoop cs [g1, g2] g1

/-- The canonical list: the 24 rotation matrices of the octahedron (signed
permutation matrices of determinant 1), sorted lexicographically. Proved below
to be the unique possible output of get_elements. -/
def ohList : List Mat :=
  [ [[-1, 0, 0], [0, -1, 0], [0, 0, 1]],
    [[-1, 0, 0], [0, 0, -1], [0, -1, 0]],
    [[-1, 0, 0], [0, 0, 1], [0, 1, 0]],
    [[-1, 0, 0], [0, 1, 0], [0, 0, -1]],
    [[0, -1, 0], [-1, 0, 0], [0, 0, -1]],
    [[0, -1, 0], [0, 0, -1], [1, 0, 0]],
    [[0, -1, 0], [0, 0, 1], [-1, 0, 0]],
    [[0, -1, 0], [1, 0, 0], [0, 0, 1]],
    [[0, 0, -1], [-1, 0, 0], [0, 1, 0]],
    [[0, 0, -1], [0, -1, 0], [-1, 0, 0]],
    [[0, 0, -1], [0, 1, 0], [1, 0, 0]],
    [[0, 0, -1], [1, 0, 0], [0, -1, 0]],
    [[0, 0, 1], [-1, 0, 0], [0, -1, 0]],
    [[0, 0, 1], [0, -1, 0], [1, 0, 0]],
    [[0, 0, 1], [0, 1, 0], [-1, 0, 0]],
    [[0, 0, 1], [1, 0, 0], [0, 1, 0]],
    [[0, 1, 0], [-1, 0, 0], [0, 0, 1]],
    [[0, 1, 0], [0, 0, -1], [-1, 0, 0]],
    [[0, 1, 0], [0, 0, 1], [1, 0, 0]],
    [[0, 1, 0], [1, 0, 0], [0, 0, -1]],
    [[1, 0, 0], [0, -1, 0], [0, 0, -1]],
    [[1, 0, 0], [0, 0, -1], [0, 1, 0]],
    [[1, 0, 0], [0, 0, 1], [0, -1, 0]],
    [[1, 0, 0], [0, 1, 0], [0, 0, 1]] ]

/-- Python list.index as an Option: position of the first occurrence, none
models the ValueError raised when the value is absent. -/
def elemIndex (x : Mat) : List Mat → Option Nat
  | [] => none
  | y :: ys => if y = x then some 0 else (elemIndex x ys).map (fun n => n + 1)

/-- Scaling a matrix entrywise: element[0:3] = element[0:3] * s multiplies all
three rows, hence every entry, by s. -/
def scaleMat (s : Int) (M : Mat) : Mat := M.map (fun r => r.map (fun x => s * x))

/-- OhArray.get_int on one 3x3 matrix, with the element list explicit: the
mirror bit m is 0 exactly when the matrix is in the list, the matrix is scaled
by (-1)^m, and the result index is its position in the list; none models the
ValueError of list.index when the scaled matrix is absent. -/
def get_int (elements : List Mat) (mat : Mat) : Option (Nat × Nat) :=
  let m : Nat := if mat ∈ elements then 0 else 1
  let orig := scaleMat ((-1) ^ m) mat
  (elemIndex orig elements).map (fun i => (i, m))

/-- OhArray.get_mat with the element list explicit: look the element up by
index and scale it by (-1)^mirror. -/
def get_mat (elements : List Mat) (index mirror : Nat) : Mat :=
  scaleMat ((-1) ^ mirror) (elements.getD index [])

/-- OhArray.get_mat as a state transformer on the stored element list
(self.elements), following the code step by step: the code deepcopies the
looked-up element and applies the scaling to the copy, so the stored list the
method leaves behind is the one it started with. -/
def get_mat_st (elements : List Mat) (index mirror : Nat) : Mat × List Mat :=
  let element := elements.getD index []
  let scaled := scaleMat ((-1) ^ mirror) element
  (scaled, elements)

/-- Exactly one nonzero entry, each nonzero entry 1 or -1 (one line or column
of a signed permutation matrix). -/
def rowSigned (r : List Int) : Bool :=
  r.countP (fun x => decide (x ≠ 0)) == 1 &&
    r.all (fun x => x == -1 || x == 0 || x == 1)

/-- Signed permutation matrix, 3x3: exactly one nonzero entry per row and per
column, each nonzero entry 1 or -1 (the valid Oh matrices of the spec). -/
def isSignedPerm (M : Mat) : Bool :=
  M.length == 3 && M.all (fun r => r.length == 3 && rowSigned r) &&
    (transposeM M).all rowSigned

/-- The free function meshgrid(i, m): the nested list
[[[k, l] for l in range(m)] for k in range(i)] of integer pairs. -/
def meshgrid (i m : Nat) : List (List (Int × Int)) :=
  (List.range i).map (fun k => (List.range m).map (fun l => ((k : Int), (l : Int))))

/-- The free function identity with p set to int: builds the container from the
3x3 identity matrix and reparameterizes to int, which applies get_int to that
matrix with the canonical element list the constructor generated. -/
def identityInt (cs : List Nat) : Option (Nat × Nat) :=
  (get_elements cs).bind (fun L => get_int L id3)

/-- Invariant carried through the enumeration loop: list entries are canonical
rotations without duplicates, the running product is a canonical rotation, the
list is nonempty, and a full list is sorted. -/
structure LoopInv (L : List Mat) (cur : Mat) : Prop where
  sub : ∀ A ∈ L, A ∈ ohList
  nd : L.Nodup
  cur_mem : cur ∈ ohList
  ne : L ≠ []
  sorted_of_full : 24 ≤ L.length → List.Sorted MatLE L

/-- The six rows a signed permutation matrix can have. -/
def sixRows : List (List Int) :=
  [[-1, 0, 0], [0, -1, 0], [0, 0, -1], [0, 0, 1], [0, 1, 0], [1, 0, 0]]

/-- A second concrete sequence of random draws whose run terminates (draw
5t + 1 at step t), used to witness determinism across distinct runs. -/
def csB : List Nat := (List.range 67).map (fun t => 5 * t + 1)

/-! Order lemmas: the lexicographic comparison is a total order when the entry
comparison is one, so list.sort() is a pure function of the set of entries. -/

theorem lexLe_total (le : α → α → Bool) (hto : ∀ a b, le a b = true ∨ le b a = true) :
    ∀ l1 l2 : List α, lexLe le l1 l2 = true ∨ lexLe le l2 l1 = true
  | [], _ => Or.inl rfl
  | _ :: _, [] => Or.inr rfl
  | a :: as, b :: bs => by
    simp only [lexLe, Bool.and_eq_true, Bool.or_eq_true, Bool.not_eq_true']
    rcases hto a b with hab | hba
    · by_cases hba2 : le b a = true
      · rcases lexLe_total le hto as bs with h | h
        · exact Or.inl ⟨hab, Or.inr h⟩
        · exact Or.inr ⟨hba2, Or.inr h⟩
      · exact Or.inl ⟨hab, Or.inl (by simpa using hba2)⟩
    · by_cases hab2 : le a b = true
      · rcases lexLe_total le hto as bs with h | h
        · exact Or.inl ⟨hab2, Or.inr h⟩
        · exact Or.inr ⟨hba, Or.inr h⟩
      · exact Or.inr ⟨hba, Or.inl (by simpa using hab2)⟩

theorem lexLe_trans (le : α → α → Bool)
    (htr : ∀ a b c, le a b = true → le b c = true → le a c = true) :
    ∀ l1 l2 l3 : List α, lexLe le l1 l2 = true → lexLe le l2 l3 = true →
      lexLe le l1 l3 = true
  | [], _, _, _, _ => rfl
  | _ :: _, [], _, h12, _ => by simp [lexLe] at h12
  | _ :: _, _ :: _, [], _, h23 => by simp [lexLe] at h23
  | a :: as, b :: bs, c :: cs, h12, h23 => by
    simp only [lexLe, Bool.and_eq_true, Bool.or_eq_true, Bool.not_eq_true'] at h12 h23 ⊢
    obtain ⟨hab, h12r⟩ := h12
    obtain ⟨hbc, h23r⟩ := h23
    refine ⟨htr a b c hab hbc, ?_⟩
    by_cases hca : le c a = true
    · have hba : le b a = true := htr b c a hbc hca
      have hcb : le c b = true := htr c a b hca hab
      have h12t : lexLe le as bs = true := by
        rcases h12r with h | h
        · rw [hba] at h; cases h
        · exact h
      have h23t : lexLe le bs cs = true := by
        rcases h23r with h | h
        · rw [hcb] at h; cases h
        · exact h
      exact Or.inr (lexLe_trans le htr as bs cs h12t h23t)
    · exact Or.inl (by simpa using hca)

theorem lexLe_antisymm (le : α → α → Bool)
    (has : ∀ a b, le a b = true → le b a = true → a = b) :
    ∀ l1 l2 : List α, lexLe le l1 l2 = true → lexLe le l2 l1 = true → l1 = l2
  | [], [], _, _ => rfl
  | [], _ :: _, _, h21 => by simp [lexLe] at h21
  | _ :: _, [], h12, _ => by simp [lexLe] at h12
  | a :: as, b :: bs, h12, h21 => by
    simp only [lexLe, Bool.and_eq_true, Bool.or_eq_true, Bool.not_eq_true'] at h12 h21
    obtain ⟨hab, h12r⟩ := h12
    obtain ⟨hba, h21r⟩ := h21
    have hAB : a = b := has a b hab hba
    have h12t : lexLe le as bs = true := by
      rcases h12r with h | h
      · rw [hba] at h; cases h
      · exact h
    have h21t : lexLe le bs as = true := by
      rcases h21r with h | h
      · rw [hab] at h; cases h
      · exact h
    rw [hAB, lexLe_antisymm le has as bs h12t h21t]

theorem leRow_total (r s : List Int) : leRow r s = true ∨ leRow s r = true :=
  lexLe_total _ (fun a b => by
    rcases Int.le_total a b with h | h
    · exact Or.inl (by simpa using h)
    · exact Or.inr (by simpa using h)) r s

theorem leRow_trans (r s t : List Int) (h1 : leRow r s = true) (h2 : leRow s t = true) :
    leRow r t = true :=
  lexLe_trans _ (fun a b c ha hb => by
    simp only [decide_eq_true_eq] at ha hb ⊢
    exact le_trans ha hb) r s t h1 h2

theorem leRow_antisymm (r s : List Int) (h1 : leRow r s = true) (h2 : leRow s r = true) :
    r = s :=
  lexLe_antisymm _ (fun a b ha hb => by
    simp only [decide_eq_true_eq] at ha hb
    exact le_antisymm ha hb) r s h1 h2

instance : IsTotal Mat MatLE :=
  ⟨fun A B => lexLe_total leRow (fun r s => leRow_total r s) A B⟩

instance : IsTrans Mat MatLE :=
  ⟨fun A B C hAB hBC => lexLe_trans leRow leRow_trans A B C hAB hBC⟩

instance : IsAntisymm Mat MatLE :=
  ⟨fun A B hAB hBA => lexLe_antisymm leRow leRow_antisymm A B hAB hBA⟩

theorem sortMats_perm (l : List Mat) : List.Perm (sortMats l) l :=
  List.perm_insertionSort MatLE l

theorem sortMats_sorted (l : List Mat) : List.Sorted MatLE (sortMats l) :=
  List.sorted_insertionSort MatLE l

/-! Facts about the canonical list, each checked by computation. -/

theorem ohList_length : ohList.length = 24 := rfl

theorem ohList_nodup : ohList.Nodup := by decide

theorem ohList_sorted : List.Sorted MatLE ohList := by decide

theorem ohList_closed : ∀ a ∈ ohList, ∀ b ∈ ohList, matMul a b ∈ ohList := by decide

theorem g1_mem : g1 ∈ ohList := by decide

theorem g2_mem : g2 ∈ ohList := by decide

theorem id3_mem : id3 ∈ ohList := by decide

theorem ohList_neg_not_mem : ∀ a ∈ ohList, scaleMat (-1) a ∉ ohList := by decide

theorem ohList_signed : ∀ a ∈ ohList,
    isSignedPerm a = true ∧ isSignedPerm (scaleMat (-1) a) = true := by decide

/-! Lemmas about elemIndex (Python list.index) and scaleMat. -/

theorem elemIndex_eq_none (x : Mat) :
    ∀ l : List Mat, elemIndex x l = none ↔ x ∉ l
  | [] => by simp [elemIndex]
  | y :: ys => by
    by_cases h : y = x
    · simp [elemIndex, h]
    · simp only [elemIndex, if_neg h, Option.map_eq_none', List.mem_cons]
      rw [elemIndex_eq_none x ys]
      constructor
      · rintro hn (rfl | hm)
        · exact h rfl
        · exact hn hm
      · intro hn hm
        exact hn (Or.inr hm)

theorem elemIndex_spec (x : Mat) :
    ∀ l : List Mat, ∀ i : Nat, elemIndex x l = some i → i < l.length ∧ l.getD i [] = x
  | [], i, h => by simp [elemIndex] at h
  | y :: ys, i, h => by
    by_cases hy : y = x
    · simp only [elemIndex, if_pos hy] at h
      obtain rfl : (0 : Nat) = i := Option.some.inj h
      simpa using hy
    · simp only [elemIndex, if_neg hy, Option.map_eq_some'] at h
      obtain ⟨j, hj, rfl⟩ := h
      obtain ⟨hlt, hget⟩ := elemIndex_spec x ys j hj
      constructor
      · simpa using Nat.succ_lt_succ hlt
      · simpa using hget

theorem elemIndex_of_mem (x : Mat) :
    ∀ l : List Mat, x ∈ l → ∃ i : Nat, elemIndex x l = some i
  | [], h => by cases h
  | y :: ys, h => by
    by_cases hy : y = x
    · exact ⟨0, by simp [elemIndex, hy]⟩
    · rcases List.mem_cons.1 h with rfl | hm
      · exact absurd rfl hy
      · obtain ⟨i, hi⟩ := elemIndex_of_mem x ys hm
        exact ⟨i + 1, by simp [elemIndex, hy, hi]⟩

theorem elemIndex_getD :
    ∀ (l : List Mat) (i : Nat), l.Nodup → i < l.length →
      elemIndex (l.getD i []) l = some i
  | [], i, _, hi => by simp at hi
  | y :: ys, 0, _, _ => by simp [elemIndex]
  | y :: ys, j + 1, hnd, hi => by
    have hj : j < ys.length := Nat.lt_of_succ_lt_succ (by simpa using hi)
    have hymem : y ∉ ys := (List.nodup_cons.1 hnd).1
    have hne : y ≠ ys.getD j [] := by
      intro he
      apply hymem
      rw [he, List.getD_eq_getElem ys [] hj]
      exact List.getElem_mem hj
    have hget : (y :: ys).getD (j + 1) [] = ys.getD j [] := by simp
    rw [hget]
    simp only [elemIndex, if_neg hne,
      elemIndex_getD ys j (List.nodup_cons.1 hnd).2 hj]
    rfl

theorem scaleMat_one (M : Mat) : scaleMat 1 M = M := by
  simp [scaleMat]

theorem scaleMat_neg_neg (M : Mat) : scaleMat (-1) (scaleMat (-1) M) = M := by
  simp [scaleMat, List.map_map, Function.comp]

/-! Invariant of the enumeration loop and the determinism theorem: every value
the loop can return is the sorted canonical list, whatever the random draws. -/

theorem getD_mem (L : List Mat) (i : Nat) (d : Mat) (h : i < L.length) :
    L.getD i d ∈ L := by
  rw [List.getD_eq_getElem L d h]
  exact List.getElem_mem h

theorem ohStep_fst (L : List Mat) (cur : Mat) (c : Nat) :
    (ohStep L cur c).1 =
      sortMats (if matMul cur (L.getD (c % L.length) g1) ∈ L then L
        else L ++ [matMul cur (L.getD (c % L.length) g1)]) := rfl

theorem ohStep_snd (L : List Mat) (cur : Mat) (c : Nat) :
    (ohStep L cur c).2 = matMul cur (L.getD (c % L.length) g1) := rfl

theorem ohStep_inv (L : List Mat) (cur : Mat) (c : Nat) (h : LoopInv L cur) :
    LoopInv (ohStep L cur c).1 (ohStep L cur c).2 := by
  have hlen : 0 < L.length := List.length_pos.2 h.ne
  have hm : L.getD (c % L.length) g1 ∈ L :=
    getD_mem L (c % L.length) g1 (Nat.mod_lt c hlen)
  have hcur2 : matMul cur (L.getD (c % L.length) g1) ∈ ohList :=
    ohList_closed cur h.cur_mem _ (h.sub _ hm)
  rw [ohStep_fst, ohStep_snd]
  by_cases hmem : matMul cur (L.getD (c % L.length) g1) ∈ L
  · rw [if_pos hmem]
    refine ⟨?_, ?_, hcur2, ?_, fun _ => sortMats_sorted L⟩
    · intro A hA
      exact h.sub A ((sortMats_perm L).mem_iff.1 hA)
    · exact (sortMats_perm L).nodup_iff.2 h.nd
    · intro he
      have hp := sortMats_perm L
      rw [he] at hp
      exact h.ne hp.symm.eq_nil
  · rw [if_neg hmem]
    refine ⟨?_, ?_, hcur2, ?_, fun _ => sortMats_sorted _⟩
    · intro A hA
      have hA2 := (sortMats_perm _).mem_iff.1 hA
      rcases List.mem_append.1 hA2 with hA3 | hA3
      · exact h.sub A hA3
      · rw [List.mem_singleton.1 hA3]
        exact hcur2
    · refine (sortMats_perm _).nodup_iff.2 ?_
      rw [List.nodup_append]
      refine ⟨h.nd, List.nodup_singleton _, ?_⟩
      intro x hx hx2
      rw [List.mem_singleton.1 hx2] at hx
      exact hmem hx
    · intro he
      have hp := sortMats_perm (L ++ [matMul cur (L.getD (c % L.length) g1)])
      rw [he] at hp
      have := hp.symm.eq_nil
      simp at this

theorem full_inv_eq (L : List Mat) (h24 : 24 ≤ L.length) (hnd : L.Nodup)
    (hsub : ∀ A ∈ L, A ∈ ohList) (hs : List.Sorted MatLE L) : L = ohList := by
  have hsp : L.Subperm ohList := by
    refine List.subperm_of_subset hnd ?_
    intro a ha
    exact hsub a ha
  have hlen : ohList.length ≤ L.length := by rw [ohList_length]; exact h24
  exact List.eq_of_perm_of_sorted (hsp.perm_of_length_le hlen) hs ohList_sorted

theorem ohLoop_some_eq :
    ∀ (cs : List Nat) (L : List Mat) (cur : Mat) (R : List Mat),
      LoopInv L cur → ohLoop cs L cur = some R → R = ohList
  | [], L, cur, R, h, hrun => by
    simp only [ohLoop] at hrun
    by_cases h24 : 24 ≤ L.length
    · rw [if_pos h24] at hrun
      obtain rfl : L = R := Option.some.inj hrun
      exact full_inv_eq L h24 h.nd h.sub (h.sorted_of_full h24)
    · rw [if_neg h24] at hrun
      cases hrun
  | c :: cs, L, cur, R, h, hrun => by
    simp only [ohLoop] at hrun
    by_cases h24 : 24 ≤ L.length
    · rw [if_pos h24] at hrun
      obtain rfl : L = R := Option.some.inj hrun
      exact full_inv_eq L h24 h.nd h.sub (h.sorted_of_full h24)
    · rw [if_neg h24] at hrun
      exact ohLoop_some_eq cs (ohStep L cur c).1 (ohStep L cur c).2 R
        (ohStep_inv L cur c h) hrun

theorem init_inv : LoopInv [g1, g2] g1 := by
  refine ⟨?_, by decide, g1_mem, by simp, ?_⟩
  · intro A hA
    rcases List.mem_cons.1 hA with rfl | hA2
    · exact g1_mem
    · rw [List.mem_singleton.1 hA2]
      exact g2_mem
  · intro h24
    exact absurd h24 (by decide)

theorem get_elements_some_eq (cs : List Nat) (L : List Mat)
    (h : get_elements cs = some L) : L = ohList :=
  ohLoop_some_eq cs [g1, g2] g1 L init_inv h

theorem option_get_eq (o : Option (List Mat)) (x : List Mat) (h1 : o.isSome = true)
    (h2 : o.getD [] = x) : o = some x := by
  cases o with
  | none => cases h1
  | some y => simpa using h2

set_option maxHeartbeats 1000000 in
theorem run74_isSome : (get_elements (List.range 74)).isSome = true := by decide

set_option maxHeartbeats 1000000 in
theorem run74_getD : (get_elements (List.range 74)).getD [] = ohList := by decide

theorem run74 : get_elements (List.range 74) = some ohList :=
  option_get_eq _ _ run74_isSome run74_getD

/-! Classification of signed permutation matrices: each one is either in the
canonical list or the negation of a member (this backs the mirror bit). -/

theorem rowSigned_mem (r : List Int) (hl : r.length = 3) (hs : rowSigned r = true) :
    r ∈ sixRows := by
  rcases r with _ | ⟨a, r⟩
  · simp at hl
  rcases r with _ | ⟨b, r⟩
  · simp at hl
  rcases r with _ | ⟨c, r⟩
  · simp at hl
  rcases r with _ | ⟨d, r⟩
  · simp only [rowSigned, Bool.and_eq_true, List.all_cons, List.all_nil,
      Bool.or_eq_true, beq_iff_eq] at hs
    obtain ⟨hcount, ⟨ha, hb, hc, -⟩⟩ := hs
    rcases ha with (rfl | rfl) | rfl <;> rcases hb with (rfl | rfl) | rfl <;>
      rcases hc with (rfl | rfl) | rfl <;> revert hcount <;> decide
  · simp at hl

set_option maxHeartbeats 1000000 in
theorem signedPerm_cases : ∀ r0 ∈ sixRows, ∀ r1 ∈ sixRows, ∀ r2 ∈ sixRows,
    isSignedPerm [r0, r1, r2] = true →
    [r0, r1, r2] ∈ ohList ∨ scaleMat (-1) [r0, r1, r2] ∈ ohList := by decide

theorem isSignedPerm_parts (M : Mat) (h : isSignedPerm M = true) :
    M.length = 3 ∧ ∀ r ∈ M, r.length = 3 ∧ rowSigned r = true := by
  simp only [isSignedPerm, Bool.and_eq_true, beq_iff_eq, List.all_eq_true] at h
  obtain ⟨⟨hlen, hrows⟩, -⟩ := h
  refine ⟨hlen, fun r hr => ?_⟩
  have hrr := hrows r hr
  simp only [Bool.and_eq_true, beq_iff_eq] at hrr
  exact hrr

theorem signedPerm_cover (M : Mat) (h : isSignedPerm M = true) :
    M ∈ ohList ∨ scaleMat (-1) M ∈ ohList := by
  obtain ⟨hlen, hrows⟩ := isSignedPerm_parts M h
  rcases M with _ | ⟨r0, M⟩
  · simp at hlen
  rcases M with _ | ⟨r1, M⟩
  · simp at hlen
  rcases M with _ | ⟨r2, M⟩
  · simp at hlen
  rcases M with _ | ⟨r3, M⟩
  · have h0 := hrows r0 (by simp)
    have h1 := hrows r1 (by simp)
    have h2 := hrows r2 (by simp)
    exact signedPerm_cases r0 (rowSigned_mem r0 h0.1 h0.2)
      r1 (rowSigned_mem r1 h1.1 h1.2) r2 (rowSigned_mem r2 h2.1 h2.2) h
  · simp at hlen

/-! Behaviour of the converters on the canonical list. -/

theorem get_int_eq (elements : List Mat) (M : Mat) :
    get_int elements M =
      (elemIndex (scaleMat ((-1) ^ (if M ∈ elements then 0 else 1)) M) elements).map
        (fun i => (i, if M ∈ elements then 0 else 1)) := rfl

theorem get_int_of_mem (M : Mat) (hM : M ∈ ohList) :
    ∃ i : Nat, get_int ohList M = some (i, 0) ∧ ohList.getD i [] = M := by
  obtain ⟨i, hi⟩ := elemIndex_of_mem M ohList hM
  refine ⟨i, ?_, (elemIndex_spec M ohList i hi).2⟩
  rw [get_int_eq, if_pos hM, pow_zero, scaleMat_one, hi]
  rfl

theorem get_int_of_neg_mem (M : Mat) (hM : M ∉ ohList)
    (hN : scaleMat (-1) M ∈ ohList) :
    ∃ i : Nat, get_int ohList M = some (i, 1) ∧ ohList.getD i [] = scaleMat (-1) M := by
  obtain ⟨i, hi⟩ := elemIndex_of_mem (scaleMat (-1) M) ohList hN
  refine ⟨i, ?_, (elemIndex_spec (scaleMat (-1) M) ohList i hi).2⟩
  rw [get_int_eq, if_neg hM, pow_one, hi]
  rfl

theorem roundtrip_mat (M : Mat) (h : isSignedPerm M = true) :
    (get_int ohList M).map (fun p => get_mat ohList p.1 p.2) = some M := by
  by_cases hM : M ∈ ohList
  · obtain ⟨i, hgi, hget⟩ := get_int_of_mem M hM
    rw [hgi]
    simp only [Option.map_some']
    rw [get_mat, pow_zero, scaleMat_one, hget]
  · rcases signedPerm_cover M h with hM2 | hN
    · exact absurd hM2 hM
    · obtain ⟨i, hgi, hget⟩ := get_int_of_neg_mem M hM hN
      rw [hgi]
      simp only [Option.map_some']
      rw [get_mat, pow_one, hget, scaleMat_neg_neg]

theorem signed_of_orig_mem (M : Mat)
    (h : scaleMat ((-1) ^ (if M ∈ ohList then 0 else 1)) M ∈ ohList) :
    isSignedPerm M = true := by
  by_cases hM : M ∈ ohList
  · exact (ohList_signed M hM).1
  · rw [if_neg hM, pow_one] at h
    have := (ohList_signed (scaleMat (-1) M) h).2
    rwa [scaleMat_neg_neg] at this

theorem get_int_none_iff_not_found (M : Mat) :
    get_int ohList M = none ↔
      scaleMat ((-1) ^ (if M ∈ ohList then 0 else 1)) M ∉ ohList := by
  rw [get_int_eq, Option.map_eq_none']
  exact elemIndex_eq_none _ ohList

theorem get_int_none_iff_not_signed (M : Mat) :
    get_int ohList M = none ↔ isSignedPerm M = false := by
  constructor
  · intro hnone
    cases hx : isSignedPerm M
    · rfl
    · exfalso
      by_cases hM : M ∈ ohList
      · obtain ⟨i, hi, -⟩ := get_int_of_mem M hM
        rw [hi] at hnone
        cases hnone
      · rcases signedPerm_cover M hx with hM2 | hN
        · exact hM hM2
        · obtain ⟨i, hi, -⟩ := get_int_of_neg_mem M hM hN
          rw [hi] at hnone
          cases hnone
  · intro hfalse
    rw [get_int_none_iff_not_found]
    intro hmem
    have := signed_of_orig_mem M hmem
    rw [hfalse] at this
    cases this

set_option maxHeartbeats 1000000 in
theorem runB_isSome : (get_elements csB).isSome = true := by decide

set_option maxHeartbeats 1000000 in
theorem runB_getD : (get_elements csB).getD [] = ohList := by decide

theorem runB : get_elements csB = some ohList :=
  option_get_eq _ _ runB_isSome runB_getD

/-- C1: round-trip exactness of the representation converter. For every
canonical element list produced by get_elements: converting any integer pair
(i, m) with i in [0,24) and m in 0,1 to a matrix via get_mat and back via
get_int returns exactly (i, m); and for every signed permutation matrix M,
get_mat applied to the result of get_int returns exactly M. -/
theorem oh_int_mat_roundtrip :
    ∀ (cs : List Nat) (L : List Mat), get_elements cs = some L →
      (∀ i : Nat, i < 24 → ∀ m : Nat, m < 2 →
        get_int L (get_mat L i m) = some (i, m)) ∧
      (∀ M : Mat, isSignedPerm M = true →
        (get_int L M).map (fun p => get_mat L p.1 p.2) = some M) := by
  intro cs L h
  obtain rfl := get_elements_some_eq cs L h
  exact ⟨by decide, roundtrip_mat⟩

/-- Witness for C1 at the run with draws 0..73, pair (5, 1) and matrix g2. -/
theorem oh_int_mat_roundtrip_witness :
    get_int ohList (get_mat ohList 5 1) = some (5, 1) ∧
      (get_int ohList g2).map (fun p => get_mat ohList p.1 p.2) = some g2 :=
  ⟨(oh_int_mat_roundtrip (List.range 74) ohList run74).1 5 (by decide) 1 (by decide),
   (oh_int_mat_roundtrip (List.range 74) ohList run74).2 g2 (by decide)⟩

/-- C2: for every integer pair (i, j) with i in [0,24) and j in 0,1, the matrix
produced by get_mat has determinant (-1)^j and times its transpose gives the
identity, exactly over the integers. -/
theorem oh_mat_orthogonal :
    ∀ (cs : List Nat) (L : List Mat), get_elements cs = some L →
      ∀ i : Nat, i < 24 → ∀ j : Nat, j < 2 →
        det3 (get_mat L i j) = (-1) ^ j ∧
          matMul (get_mat L i j) (transposeM (get_mat L i j)) = id3 := by
  intro cs L h
  obtain rfl := get_elements_some_eq cs L h
  decide

/-- Witness for C2 at the run with draws 0..73 and the pair (7, 1). -/
theorem oh_mat_orthogonal_witness :
    det3 (get_mat ohList 7 1) = (-1) ^ 1 ∧
      matMul (get_mat ohList 7 1) (transposeM (get_mat ohList 7 1)) = id3 :=
  oh_mat_orthogonal (List.range 74) ohList run74 7 (by decide) 1 (by decide)

/-- C3: determinism of the canonical enumeration across randomness: any two
terminating executions of get_elements, whatever their sequences of random
draws, return identical lists. -/
theorem oh_enumeration_deterministic :
    ∀ (cs1 cs2 : List Nat) (L1 L2 : List Mat),
      get_elements cs1 = some L1 → get_elements cs2 = some L2 → L1 = L2 := by
  intro cs1 cs2 L1 L2 h1 h2
  rw [get_elements_some_eq cs1 L1 h1, get_elements_some_eq cs2 L2 h2]

/-- Witness for C3: two distinct terminating draw sequences (0,1,2,... and
1,6,11,...) both return the canonical list. -/
theorem oh_enumeration_deterministic_witness : ohList = ohList :=
  oh_enumeration_deterministic (List.range 74) csB ohList ohList run74 runB

/-- C4: the canonical list returned by get_elements is closed under matrix
multiplication and contains the identity matrix. -/
theorem oh_canonical_closed :
    ∀ (cs : List Nat) (L : List Mat), get_elements cs = some L →
      (∀ A ∈ L, ∀ B ∈ L, matMul A B ∈ L) ∧ id3 ∈ L := by
  intro cs L h
  obtain rfl := get_elements_some_eq cs L h
  exact ⟨ohList_closed, id3_mem⟩

/-- Witness for C4 at the run with draws 0..73 and the two generators. -/
theorem oh_canonical_closed_witness :
    matMul g1 g2 ∈ ohList ∧ id3 ∈ ohList :=
  ⟨(oh_canonical_closed (List.range 74) ohList run74).1 g1 g1_mem g2 g2_mem,
   (oh_canonical_closed (List.range 74) ohList run74).2⟩

/-- C5: get_int fails exactly when the unmirrored matrix (input scaled by
(-1)^m with m the mirror bit) is absent from the canonical list; equivalently
it fails on exactly the matrices that are not signed permutation matrices. -/
theorem get_int_failure :
    ∀ (cs : List Nat) (L : List Mat), get_elements cs = some L →
      ∀ M : Mat,
        (get_int L M = none ↔
          scaleMat ((-1) ^ (if M ∈ L then 0 else 1)) M ∉ L) ∧
        (get_int L M = none ↔ isSignedPerm M = false) := by
  intro cs L h M
  obtain rfl := get_elements_some_eq cs L h
  exact ⟨get_int_none_iff_not_found M, get_int_none_iff_not_signed M⟩

/-- Witness for C5 at the run with draws 0..73 and a non-orthogonal matrix. -/
theorem get_int_failure_witness :
    (get_int ohList [[1, 1, 0], [0, 1, 0], [0, 0, 1]] = none ↔
      scaleMat ((-1) ^ (if [[1, 1, 0], [0, 1, 0], [0, 0, 1]] ∈ ohList then 0 else 1))
        [[1, 1, 0], [0, 1, 0], [0, 0, 1]] ∉ ohList) ∧
    (get_int ohList [[1, 1, 0], [0, 1, 0], [0, 0, 1]] = none ↔
      isSignedPerm [[1, 1, 0], [0, 1, 0], [0, 0, 1]] = false) :=
  get_int_failure (List.range 74) ohList run74 [[1, 1, 0], [0, 1, 0], [0, 0, 1]]

/-- C6: the enumeration loop can terminate, every terminating run returns
exactly 24 distinct matrices, and a step whose product is already present
leaves the list size unchanged, so duplicates never count toward the size-24
exit condition. -/
theorem oh_enumeration_terminates :
    (∃ (cs : List Nat) (L : List Mat), get_elements cs = some L) ∧
    (∀ (cs : List Nat) (L : List Mat), get_elements cs = some L →
      L.length = 24 ∧ L.Nodup) ∧
    (∀ (L : List Mat) (cur : Mat) (c : Nat),
      matMul cur (L.getD (c % L.length) g1) ∈ L →
      ((ohStep L cur c).1).length = L.length) := by
  refine ⟨⟨List.range 74, ohList, run74⟩, ?_, ?_⟩
  · intro cs L h
    obtain rfl := get_elements_some_eq cs L h
    exact ⟨rfl, ohList_nodup⟩
  · intro L cur c hmem
    rw [ohStep_fst, if_pos hmem]
    exact (sortMats_perm L).length_eq

/-- Witness for C6: the terminating run with draws 0..73 has 24 distinct
elements, and a duplicate step on the canonical list is a no-op in size. -/
theorem oh_enumeration_terminates_witness :
    (ohList.length = 24 ∧ ohList.Nodup) ∧
      ((ohStep ohList id3 0).1).length = ohList.length :=
  ⟨oh_enumeration_terminates.2.1 (List.range 74) ohList run74,
   oh_enumeration_terminates.2.2 ohList id3 0 (by decide)⟩

/-- C7: identity with parameterization int returns the pair (23, 0), and 23 is
the position of the identity matrix in the canonical list. -/
theorem identity_int_index :
    ∀ (cs : List Nat) (L : List Mat), get_elements cs = some L →
      identityInt cs = some (23, 0) ∧ elemIndex id3 L = some 23 ∧
        L.getD 23 [] = id3 := by
  intro cs L h
  have hL := get_elements_some_eq cs L h
  subst hL
  refine ⟨?_, by decide, by decide⟩
  rw [identityInt, h]
  show get_int ohList id3 = some (23, 0)
  decide

/-- Witness for C7 at the run with draws 0..73. -/
theorem identity_int_index_witness :
    identityInt (List.range 74) = some (23, 0) ∧
      elemIndex id3 ohList = some 23 ∧ ohList.getD 23 [] = id3 :=
  identity_int_index (List.range 74) ohList run74

/-- C8: meshgrid 24 2 has shape 24 by 2, entry (k, l) at position [k, l], and
contains each of the 48 pairs exactly once. -/
theorem meshgrid_full_enumeration :
    (meshgrid 24 2).length = 24 ∧
    (∀ row ∈ meshgrid 24 2, row.length = 2) ∧
    (∀ k : Nat, k < 24 → ∀ l : Nat, l < 2 →
      ((meshgrid 24 2).getD k []).getD l (0, 0) = ((k : Int), (l : Int))) ∧
    (meshgrid 24 2).flatten.Nodup ∧ (meshgrid 24 2).flatten.length = 48 := by
  refine ⟨rfl, by decide, by decide, by decide, rfl⟩

/-- Witness for C8 at position [3, 1]. -/
theorem meshgrid_full_enumeration_witness :
    ((meshgrid 24 2).getD 3 []).getD 1 (0, 0) = ((3 : Int), (1 : Int)) :=
  meshgrid_full_enumeration.2.2.1 3 (by decide) 1 (by decide)

/-- C9: get_mat does not mutate the stored canonical element list: the state
it leaves is the state it received, for every index and mirror flag, and the
value returned agrees with the pure converter. -/
theorem get_mat_no_mutation :
    ∀ (elements : List Mat) (index mirror : Nat),
      (get_mat_st elements index mirror).2 = elements ∧
      (get_mat_st elements index mirror).1 = get_mat elements index mirror :=
  fun _ _ _ => ⟨rfl, rfl⟩

/-- C10: the mirror bit is well defined: no canonical element has its negation
in the canonical list, and for a signed permutation matrix M membership of M
and membership of -M in the list exclude each other, so the bit computed by
get_int is uniquely determined. -/
theorem mirror_bit_well_defined :
    ∀ (cs : List Nat) (L : List Mat), get_elements cs = some L →
      (∀ M ∈ L, scaleMat (-1) M ∉ L) ∧
      (∀ M : Mat, isSignedPerm M = true → (M ∈ L ↔ scaleMat (-1) M ∉ L)) := by
  intro cs L h
  obtain rfl := get_elements_some_eq cs L h
  refine ⟨ohList_neg_not_mem, ?_⟩
  intro M hsp
  constructor
  · intro hM
    exact ohList_neg_not_mem M hM
  · intro hnot
    rcases signedPerm_cover M hsp with hM | hN
    · exact hM
    · exact absurd hN hnot

/-- Witness for C10 at the run with draws 0..73 and the generator g1. -/
theorem mirror_bit_well_defined_witness :
    scaleMat (-1) g1 ∉ ohList ∧ (g1 ∈ ohList ↔ scaleMat (-1) g1 ∉ ohList) :=
  ⟨(mirror_bit_well_defined (List.range 74) ohList run74).1 g1 g1_mem,
   (mirror_bit_well_defined (List.range 74) ohList run74).2 g1 (by decide)⟩
